import Mathlib

/-!
Verification of the triedir converter (src/main.py).

The program converts between an indented outline notation and a glyph
tree-diagram notation for filesystem hierarchies, and can materialize a
parsed tree as directories and empty files on disk.

Python strings are embedded as `List Char`.  Each function below is a
direct translation of the correspondingly named Python function; line
numbers in the comments refer to src/main.py.
-/

/-- Coercion from a Lean string literal to the `List Char` representation
used for Python strings throughout this development. -/
def str (s : String) : List Char := s.data

/-- Whitespace characters as recognized by Python's `str.strip` family
(ASCII subset; the inputs of interest contain only these). -/
def isPySpace (c : Char) : Bool :=
  c == ' ' || c == '\t' || c == '\n' || c == '\r' || c == '\x0b' || c == '\x0c'

/-- Python `str.rstrip()`: remove trailing whitespace. -/
def rstrip (cs : List Char) : List Char :=
  (cs.reverse.dropWhile isPySpace).reverse

/-- Python `str.lstrip()`: remove leading whitespace. -/
def lstrip (cs : List Char) : List Char :=
  cs.dropWhile isPySpace

/-- Python `str.strip()`: remove leading and trailing whitespace. -/
def strip (cs : List Char) : List Char :=
  rstrip (lstrip cs)

/-- Helper for `splitlines`: accumulates the current line (reversed); a
final newline does not open an extra empty line. -/
def splitlinesGo : List Char → List Char → List (List Char)
  | [], acc => [acc.reverse]
  | c :: rest, acc =>
    if c = '\n' then
      match rest with
      | [] => [acc.reverse]
      | _ :: _ => acc.reverse :: splitlinesGo rest []
    else splitlinesGo rest (c :: acc)

/-- Python `str.splitlines()` restricted to `'\n'` terminators: the input
text of this program is read as UTF-8 lines separated by newlines. -/
def splitlines : List Char → List (List Char)
  | [] => []
  | cs => splitlinesGo cs []

/-- Python `name.endswith("/")`. -/
def endsWithSlash (cs : List Char) : Bool :=
  cs.getLast? == some '/'

/-- Node of the hierarchical model (src/main.py lines 4-12).  `children`
keeps insertion order; `level` is the indentation level recorded by the
parser that produced the record. -/
inductive Node where
  | mk (name : List Char) (is_dir : Bool) (level : Nat) (children : List Node)

/-- Stored textual label of a node. -/
def Node.name : Node → List Char
  | .mk n _ _ _ => n

/-- Directory flag of a node. -/
def Node.is_dir : Node → Bool
  | .mk _ d _ _ => d

/-- Stored indentation level of a node. -/
def Node.level : Node → Nat
  | .mk _ _ l _ => l

/-- Ordered children of a node. -/
def Node.children : Node → List Node
  | .mk _ _ _ cs => cs

/-- Python `Node.add_child` (src/main.py lines 11-12): append a child. -/
def addChild (parent child : Node) : Node :=
  match parent with
  | .mk n d l cs => .mk n d l (cs ++ [child])

/-- A parser record: `(name, level)` (the Python tuples). -/
abbrev Record := List Char × Nat

/-- Python `parse_markdown` (src/main.py lines 15-32): per non-blank line
(after `rstrip`), the level is the number of leading space characters and
the name is the rest of the line, stripped. -/
def parse_markdown (markdown_text : List Char) : List Record :=
  (splitlines markdown_text).filterMap fun line =>
    let l := rstrip line
    if l = [] then none
    else
      let level := (l.takeWhile (fun c => c == ' ')).length
      some (strip (l.drop level), level)

/-!
`build_tree` (src/main.py lines 35-54).

The Python function keeps a stack of aliases into a mutable tree.  The
pure translation keeps a stack of frames (plain `Node` values, top of
stack first); a frame's subtree is complete only when it is popped, at
which point it is appended to the children of the frame below it —
which is exactly the node `stack[-1]` that the Python code attached the
child to at insertion time, because frames below a stack entry do not
change while it is on the stack.  When the bottom frame is popped and
nothing is below it, it is recorded as the function's result if no
result was recorded yet (Python returns the first node, `root_node`,
regardless of later pops; nodes pushed onto an emptied stack are
unreachable from `root_node` and are dropped, just as in Python).
-/

/-- Pop loop body of `build_tree` (src/main.py lines 47-48): `f` is the
current top of the stack, `rest` the frames below it, `r` the recorded
root result, `lvl` the level of the record being inserted. -/
def popGo (lvl : Nat) : Node → List Node → Option Node → (List Node × Option Node)
  | f, rest, r =>
    if lvl ≤ f.level then
      match rest with
      | [] => ([], match r with | some t => some t | none => some f)
      | g :: rest2 => popGo lvl (addChild g f) rest2 r
    else (f :: rest, r)

/-- Python `while stack and level <= stack[-1].level: stack.pop()`. -/
def popLoop (lvl : Nat) (stack : List Node) (r : Option Node) :
    List Node × Option Node :=
  match stack with
  | [] => ([], r)
  | f :: rest => popGo lvl f rest r

/-- Node built for one record (src/main.py lines 44-45): the stored name
is the record's name, unchanged; the directory flag is the trailing-slash
test; no children yet. -/
def recordNode (rec : Record) : Node :=
  .mk rec.1 (endsWithSlash rec.1) rec.2 []

/-- Loop body of `build_tree` (src/main.py lines 43-52): build the node for
one record, pop the stack, and push the new node (attachment to
`stack[-1]` is deferred to the moment the new node is itself popped). -/
def build_step (state : List Node × Option Node) (rec : Record) :
    List Node × Option Node :=
  let s2 := popLoop rec.2 state.1 state.2
  (recordNode rec :: s2.1, s2.2)

/-- Final collapse of the remaining stack: attach each frame to the frame
below it; the bottom frame is the root unless a root result was already
recorded (in Python the links already exist and `root_node` is returned). -/
def collapseGo : Node → List Node → Option Node → Option Node
  | f, [], r => match r with | some t => some t | none => some f
  | f, g :: rest, r => collapseGo (addChild g f) rest r

/-- Collapse entry point. -/
def collapse : List Node → Option Node → Option Node
  | [], r => r
  | f :: rest, r => collapseGo f rest r

/-- Python `build_tree` (src/main.py lines 35-54): `None` on empty input;
otherwise the first record becomes the root (forced directory), and each
subsequent record is attached below the nearest strictly shallower
ancestor on the stack. -/
def build_tree (entries : List Record) : Option Node :=
  match entries with
  | [] => none
  | (n0, l0) :: rest =>
    let s := rest.foldl build_step ([Node.mk n0 true l0 []], none)
    collapse s.1 s.2

/-!
`generate_tree_text` (src/main.py lines 57-78).
-/

/-- Rendered label of one node in the tree diagram (src/main.py line 69):
the Python code writes `node.name[:-1] + ("/" if node.is_dir else "")`,
i.e. it always removes the final character of the stored name and puts a
`/` back for directories. -/
def nodeLabel (n : Node) : List Char :=
  n.name.dropLast ++ (if n.is_dir then ['/'] else [])

mutual

/-- Python `_generate_tree_text_recursive` (src/main.py lines 61-74):
one line for the node itself, then the children, the last child with the
last-branch connector.  `pfx` is the accumulated `prefix` argument. -/
def gttNode (indent_str branch_str last_branch_str : List Char) :
    Node → List Char → Bool → List Char
  | .mk n d l cs, pfx, is_last =>
    pfx ++ (if is_last then last_branch_str else branch_str)
      ++ nodeLabel (.mk n d l cs) ++ ['\n']
      ++ gttChildren indent_str branch_str last_branch_str cs
          (pfx ++ (if is_last then indent_str else '│' :: indent_str))

/-- Children loop of `_generate_tree_text_recursive` (src/main.py lines
71-73): `i == len(node.children) - 1` marks the last child. -/
def gttChildren (indent_str branch_str last_branch_str : List Char) :
    List Node → List Char → List Char
  | [], _ => []
  | [c], p => gttNode indent_str branch_str last_branch_str c p true
  | c :: c2 :: rest, p =>
    gttNode indent_str branch_str last_branch_str c p false
      ++ gttChildren indent_str branch_str last_branch_str (c2 :: rest) p

end

/-- Python `generate_tree_text` (src/main.py lines 57-78): empty output
for a missing tree, otherwise the root is rendered with the last-branch
connector and an empty prefix. -/
def generate_tree_text (root_node : Option Node)
    (indent_str branch_str last_branch_str : List Char) : List Char :=
  match root_node with
  | none => []
  | some root => gttNode indent_str branch_str last_branch_str root [] true

/-!
`parse_tree_text` (src/main.py lines 81-119).
-/

/-- Characters treated as indentation or tree-drawing marks by the first
scan of `parse_tree_text` (src/main.py line 104; the four-space string
element of the Python tuple can never equal a single character and is
dropped). -/
def isMark (c : Char) : Bool :=
  c == ' ' || c == '│' || c == '├' || c == '└' || c == '─'

/-- First scan of `parse_tree_text` (src/main.py lines 103-110).
Arguments: remaining characters, current index `i`, accumulated `level`,
`name_start`, and `current_indent`; returns the final
`(level, name_start)`. -/
def ptScan (indent_len : Nat) : List Char → Nat → Nat → Nat → Nat → Nat × Nat
  | [], _, level, ns, _ => (level, ns)
  | c :: rest, i, level, ns, ci =>
    let ns2 := if isMark c then i + 1 else ns
    if c == ' ' then
      if ci + 1 == indent_len then ptScan indent_len rest (i + 1) (level + 1) ns2 0
      else ptScan indent_len rest (i + 1) level ns2 (ci + 1)
    else ptScan indent_len rest (i + 1) level ns2 ci

/-- Second scan of `parse_tree_text` (src/main.py lines 112-115): does the
line contain a vertical-continuation or branch glyph? -/
def hasGlyph (line : List Char) : Bool :=
  line.any fun c => c == '│' || c == '├' || c == '└'

/-- Python `parse_tree_text` (src/main.py lines 81-119): one record per
non-blank line; the level counts completed indentation units of plain
spaces plus one extra level if a glyph occurs; the name starts right
after the last mark character. -/
def parse_tree_text (tree_text : List Char) (indent_str : List Char) :
    List Record :=
  let indent_len := indent_str.length
  (splitlines tree_text).filterMap fun line0 =>
    let line := rstrip line0
    if line = [] then none
    else
      let s := ptScan indent_len line 0 0 0 0
      let level := s.1 + (if hasGlyph line then 1 else 0)
      some (strip (line.drop s.2), level)

/-!
`generate_markdown` (src/main.py lines 121-136).  The `level == -1`
branch of the Python helper is unreachable (the function is called with
`0` and with the non-negative stored `child.level` only) and the `print`
call is an ignored console side effect.
-/

mutual

/-- Python `_generate_markdown_recursive` (src/main.py lines 124-132):
the node's line indented by `"    "` repeated `level` times, then the
children, each rendered with its own stored level. -/
def gmNode : Node → Nat → List Char
  | .mk n _ _ cs, level =>
    (List.replicate level (str "    ")).flatten ++ n ++ ['\n']
      ++ gmChildren cs

/-- Children loop of `_generate_markdown_recursive` (src/main.py lines
130-131). -/
def gmChildren : List Node → List Char
  | [] => []
  | c :: rest => gmNode c c.level ++ gmChildren rest

end

/-- Python `generate_markdown` (src/main.py lines 121-136): empty output
for a missing tree, otherwise the root starts at level 0. -/
def generate_markdown (root_node : Option Node) : List Char :=
  match root_node with
  | none => []
  | some root => gmNode root 0

/-!
Filesystem model for `create_files_and_dirs` (src/main.py lines 156-165).

A path is the list of name components joined by `os.path.join` along the
recursion; the filesystem is an association list from paths to entries,
most recent binding first.  `os.makedirs(path, exist_ok=True)` creates
every missing ancestor as a directory, accepts existing directories, and
fails (raises) if some ancestor exists as a file; `open(path, "w")` is
modelled as writing an empty file.  Failure is `none`.
-/

/-- A filesystem entry: a directory, or a file with its size (sizes let
the statements talk about truncation). -/
inductive FsEntry where
  | dir
  | file (size : Nat)
deriving DecidableEq

/-- A path: the chain of `os.path.join` components. -/
abbrev FsPath := List (List Char)

/-- The filesystem: an association list, most recent binding first. -/
abbrev FS := List (FsPath × FsEntry)

/-- Look up a path. -/
def lookupFS (fs : FS) (p : FsPath) : Option FsEntry :=
  match fs with
  | [] => none
  | (q, e) :: rest => if q = p then some e else lookupFS rest p

/-- Bind a path to an entry (shadowing any earlier binding). -/
def setFS (fs : FS) (p : FsPath) (e : FsEntry) : FS :=
  (p, e) :: fs

/-- Create one directory, tolerating an existing one (`exist_ok=True`);
an existing file at the path is an error. -/
def mkdirOne (fs : FS) (p : FsPath) : Option FS :=
  match lookupFS fs p with
  | some FsEntry.dir => some fs
  | some (FsEntry.file _) => none
  | none => some (setFS fs p FsEntry.dir)

/-- Nonempty ancestors of a path, shortest first. -/
def ancestorsOf (p : FsPath) : List FsPath :=
  (List.range p.length).map fun i => p.take (i + 1)

/-- Create the listed directories in order, stopping at the first error. -/
def makedirsGo (fs : FS) : List FsPath → Option FS
  | [] => some fs
  | q :: rest =>
    match mkdirOne fs q with
    | none => none
    | some fs2 => makedirsGo fs2 rest

/-- Python `os.makedirs(path, exist_ok=True)`. -/
def makedirs (fs : FS) (p : FsPath) : Option FS :=
  makedirsGo fs (ancestorsOf p)

mutual

/-- Python `create_files_and_dirs` (src/main.py lines 156-165): for a
directory node, `makedirs` then recurse into the children at the
extended path; for a file node, create an empty file only if nothing
exists at the path (`if not os.path.exists(path)`). -/
def create_files_and_dirs : Node → FsPath → FS → Option FS
  | .mk nm d _ cs, current_path, fs =>
    let path := current_path ++ [nm]
    if d then
      match makedirs fs path with
      | none => none
      | some fs1 => createChildren cs path fs1
    else
      if (lookupFS fs path).isSome then some fs
      else some (setFS fs path (FsEntry.file 0))

/-- Children loop of `create_files_and_dirs` (src/main.py lines 161-162). -/
def createChildren : List Node → FsPath → FS → Option FS
  | [], _, fs => some fs
  | c :: rest, p, fs =>
    match create_files_and_dirs c p fs with
    | none => none
    | some fs2 => createChildren rest p fs2

end

/-!
`detect_input_type` (src/main.py lines 167-176).
-/

/-- Python `str.lower()` (ASCII; the recognized extensions are ASCII). -/
def pylower (cs : List Char) : List Char :=
  cs.map Char.toLower

/-- Python `detect_input_type` (src/main.py lines 167-176): the content
argument is never consulted; an empty extension is falsy and falls
through to `None`, as does any unrecognized extension. -/
def detect_input_type (_input_text : List Char) (file_extension : List Char) :
    Option (List Char) :=
  if file_extension = [] then none
  else
    let e := pylower file_extension
    if e = str ".md" then some (str "markdown")
    else if e = str ".txt" then some (str "tree")
    else if e = str ".tree" then some (str "tree")
    else none

/-!
Supporting lemmas.
-/

/-- A `Char.ofNat` in the ASCII range evaluates back to its code. -/
theorem toNat_ofNat_ascii (n : Nat) (h : n < 255) : (Char.ofNat n).toNat = n := by
  have hv : n.isValidChar := Or.inl (by omega)
  simp [Char.ofNat, hv, Char.ofNatAux, Char.toNat, UInt32.toNat, UInt32.ofNatCore]

/-- Lowercasing is idempotent. -/
theorem toLower_idem (c : Char) : c.toLower.toLower = c.toLower := by
  unfold Char.toLower
  by_cases h : c.toNat ≥ 65 ∧ c.toNat ≤ 90
  · rw [if_pos h]
    have h2 : (Char.ofNat (c.toNat + 32)).toNat = c.toNat + 32 :=
      toNat_ofNat_ascii _ (by omega)
    rw [if_neg (by omega)]
  · rw [if_neg h, if_neg h]

/-- Python lowercasing is idempotent. -/
theorem pylower_idem (cs : List Char) : pylower (pylower cs) = pylower cs := by
  simp [pylower, Function.comp_def, toLower_idem]

/-- Lowercasing keeps a string nonempty. -/
theorem pylower_ne_nil {cs : List Char} (h : cs ≠ []) : pylower cs ≠ [] := by
  simpa [pylower] using h

/-- Unfolding of `popGo` on a nonempty remaining stack. -/
theorem popGo_cons (lvl : Nat) (f g : Node) (rest : List Node) (r : Option Node) :
    popGo lvl f (g :: rest) r =
      if lvl ≤ f.level then popGo lvl (addChild g f) rest r
      else (f :: g :: rest, r) := rfl

/-- Unfolding of `popGo` on an empty remaining stack. -/
theorem popGo_nil (lvl : Nat) (f : Node) (r : Option Node) :
    popGo lvl f [] r =
      if lvl ≤ f.level then
        ([], match r with | some t => some t | none => some f)
      else ([f], r) := rfl

/-!
Claim theorems.
-/

/-- C2: `build_tree` applied to an empty record sequence signals failure
(the Python function returns `None`, the model's empty-input error
value); no tree is built. -/
theorem c2_empty_input : build_tree [] = none := rfl

/-- C3: parsing the outline `root/\n    a/\n        b\n    c\n` and
building the tree yields a root with children `a/` and `c` in that order,
`a/` with single child `b`, where `b` and `c` are files and `a/` and the
root are directories; and in general the stack is popped while its top's
level is at least the incoming record's level, and popping stops as soon
as the top is strictly shallower. -/
theorem c3_depth_stack :
    build_tree (parse_markdown (str "root/\n    a/\n        b\n    c\n")) =
      some (.mk (str "root/") true 0
        [.mk (str "a/") true 4 [.mk (str "b") false 8 []],
         .mk (str "c") false 4 []]) ∧
    (∀ (lvl : Nat) (f g : Node) (rest : List Node) (r : Option Node),
      lvl ≤ f.level →
      popLoop lvl (f :: g :: rest) r = popLoop lvl (addChild g f :: rest) r) ∧
    (∀ (lvl : Nat) (f : Node) (rest : List Node) (r : Option Node),
      f.level < lvl →
      popLoop lvl (f :: rest) r = (f :: rest, r)) := by
  refine ⟨rfl, ?_, ?_⟩
  · intro lvl f g rest r h
    show popGo lvl f (g :: rest) r = popGo lvl (addChild g f) rest r
    rw [popGo_cons, if_pos h]
  · intro lvl f rest r h
    have hn : ¬ lvl ≤ f.level := by omega
    show popGo lvl f rest r = (f :: rest, r)
    cases rest with
    | nil => rw [popGo_nil, if_neg hn]
    | cons g rest2 => rw [popGo_cons, if_neg hn]

/-- Witness for C3's general pop conditions at concrete inputs. -/
theorem c3_depth_stack_witness :
    (popLoop 4 [Node.mk (str "b") false 8 [], Node.mk (str "a/") true 4 []] none =
      popLoop 4 [addChild (Node.mk (str "a/") true 4 [])
        (Node.mk (str "b") false 8 [])] none) ∧
    (popLoop 9 [Node.mk (str "b") false 8 []] none =
      ([Node.mk (str "b") false 8 []], none)) :=
  ⟨c3_depth_stack.2.1 4 (Node.mk (str "b") false 8 [])
      (Node.mk (str "a/") true 4 []) [] none (by decide),
   c3_depth_stack.2.2 9 (Node.mk (str "b") false 8 []) [] none (by decide)⟩

/-- C10: notation detection is case-insensitive in the extension (it
agrees with its lowercase form), and any extension whose lowercase form
is not one of `.md`, `.txt`, `.tree` — the empty extension included —
yields no tag rather than an error. -/
theorem c10_detect (txt ext : List Char) :
    detect_input_type txt ext = detect_input_type txt (pylower ext) ∧
    (pylower ext ≠ str ".md" → pylower ext ≠ str ".txt" →
      pylower ext ≠ str ".tree" → detect_input_type txt ext = none) := by
  constructor
  · by_cases h : ext = []
    · subst h; rfl
    · simp only [detect_input_type, if_neg h, if_neg (pylower_ne_nil h),
        pylower_idem]
  · intro h1 h2 h3
    by_cases h : ext = []
    · simp [detect_input_type, h]
    · simp only [detect_input_type, if_neg h, if_neg h1, if_neg h2, if_neg h3]

/-- Witness for C10 at the concrete extensions `.MD` and `.JSON`. -/
theorem c10_detect_witness :
    (detect_input_type [] (str ".MD") =
      detect_input_type [] (pylower (str ".MD"))) ∧
    detect_input_type [] (str ".JSON") = none :=
  ⟨(c10_detect [] (str ".MD")).1,
   (c10_detect [] (str ".JSON")).2 (by decide) (by decide) (by decide)⟩

/-!
Name preservation in `build_tree` (used by claim C4): the result of
`build_tree` is always the node built for the first record, whose stored
name is that record's name, unchanged.  `lastNameState` reads the name
of the eventual result out of an intermediate builder state: either a
root result was already recorded, or it is the bottom frame of the stack.
-/

/-- Name of a freshly built node. -/
theorem name_mk (n : List Char) (d : Bool) (l : Nat) (cs : List Node) :
    (Node.mk n d l cs).name = n := rfl

/-- Appending a child does not change a node's name. -/
theorem addChild_name (g c : Node) : (addChild g c).name = g.name := by
  cases g; rfl

/-- Appending a child does not change a node's directory flag. -/
theorem addChild_is_dir (g c : Node) : (addChild g c).is_dir = g.is_dir := by
  cases g; rfl

/-- Appending a child does not change a node's level. -/
theorem addChild_level (g c : Node) : (addChild g c).level = g.level := by
  cases g; rfl

/-- Children after `addChild`. -/
theorem addChild_children (g c : Node) :
    (addChild g c).children = g.children ++ [c] := by
  cases g; rfl

/-- Name of the eventual `build_tree` result as read off a builder state. -/
def lastNameState (stack : List Node) (r : Option Node) : Option (List Char) :=
  match r with
  | some t => some t.name
  | none => stack.getLast?.map Node.name

/-- Attaching the popped top to the frame below it does not change the
eventual result's name. -/
theorem lastNameState_attach (f g : Node) (rest : List Node) (r : Option Node) :
    lastNameState (addChild g f :: rest) r = lastNameState (f :: g :: rest) r := by
  cases r with
  | some t => rfl
  | none =>
    unfold lastNameState
    cases rest with
    | nil => simp [addChild_name]
    | cons c rest2 => rw [List.getLast?_cons_cons, List.getLast?_cons_cons,
        List.getLast?_cons_cons]

/-- The pop loop body preserves the eventual result's name. -/
theorem popGo_lastName (rest : List Node) (lvl : Nat) (f : Node) (r : Option Node) :
    lastNameState (popGo lvl f rest r).1 (popGo lvl f rest r).2 =
      lastNameState (f :: rest) r := by
  induction rest generalizing f r with
  | nil =>
    rw [popGo_nil]
    by_cases h : lvl ≤ f.level
    · rw [if_pos h]
      cases r with
      | some t => rfl
      | none => rfl
    · rw [if_neg h]
  | cons g rest2 ih =>
    rw [popGo_cons]
    by_cases h : lvl ≤ f.level
    · rw [if_pos h, ih, lastNameState_attach]
    · rw [if_neg h]

/-- The pop loop preserves the eventual result's name. -/
theorem popLoop_lastName (lvl : Nat) (stack : List Node) (r : Option Node) :
    lastNameState (popLoop lvl stack r).1 (popLoop lvl stack r).2 =
      lastNameState stack r := by
  cases stack with
  | nil => rfl
  | cons f rest => exact popGo_lastName rest lvl f r

/-- One record step preserves the eventual result's name. -/
theorem build_step_lastName (st : List Node × Option Node) (rec : Record)
    (nm : List Char) (h : lastNameState st.1 st.2 = some nm) :
    lastNameState (build_step st rec).1 (build_step st rec).2 = some nm := by
  have hp := popLoop_lastName rec.2 st.1 st.2
  rw [h] at hp
  show lastNameState (recordNode rec :: (popLoop rec.2 st.1 st.2).1)
    (popLoop rec.2 st.1 st.2).2 = some nm
  cases hr : (popLoop rec.2 st.1 st.2).2 with
  | some t =>
    rw [hr] at hp
    exact hp
  | none =>
    rw [hr] at hp
    cases hs : (popLoop rec.2 st.1 st.2).1 with
    | nil =>
      rw [hs] at hp
      simp [lastNameState] at hp
    | cons x xs =>
      rw [hs] at hp
      simp only [lastNameState] at hp ⊢
      rw [List.getLast?_cons_cons]
      exact hp

/-- The whole record fold preserves the eventual result's name. -/
theorem foldl_lastName (l : List Record) (st : List Node × Option Node)
    (nm : List Char) (h : lastNameState st.1 st.2 = some nm) :
    lastNameState (l.foldl build_step st).1 (l.foldl build_step st).2 = some nm := by
  induction l generalizing st with
  | nil => exact h
  | cons rec l2 ih => exact ih _ (build_step_lastName st rec nm h)

/-- Collapsing the final stack produces the node whose name
`lastNameState` predicted. -/
theorem collapseGo_lastName (rest : List Node) (f : Node) (r : Option Node)
    (nm : List Char) (h : lastNameState (f :: rest) r = some nm) :
    ∃ t, collapseGo f rest r = some t ∧ t.name = nm := by
  induction rest generalizing f r with
  | nil =>
    cases r with
    | some t =>
      refine ⟨t, rfl, ?_⟩
      simpa [lastNameState] using h
    | none =>
      refine ⟨f, rfl, ?_⟩
      simpa [lastNameState] using h
  | cons g rest2 ih =>
    rw [← lastNameState_attach] at h
    exact ih (addChild g f) r h

/-- Collapse produces the node whose name `lastNameState` predicted. -/
theorem collapse_lastName (stack : List Node) (r : Option Node)
    (nm : List Char) (h : lastNameState stack r = some nm) :
    ∃ t, collapse stack r = some t ∧ t.name = nm := by
  cases stack with
  | nil =>
    cases r with
    | some t =>
      refine ⟨t, rfl, ?_⟩
      simpa [lastNameState] using h
    | none => simp [lastNameState] at h
  | cons f rest => exact collapseGo_lastName rest f r nm h

/-- `build_tree` on a nonempty sequence returns a tree whose root carries
the first record's name, unchanged. -/
theorem build_tree_root_name (n0 : List Char) (l0 : Nat) (rest : List Record) :
    ∃ t, build_tree ((n0, l0) :: rest) = some t ∧ t.name = n0 := by
  unfold build_tree
  exact collapse_lastName _ _ n0
    (foldl_lastName rest ([Node.mk n0 true l0 []], none) n0 rfl)

/-- A name ending in the separator is its own dropLast plus the slash. -/
theorem dropLast_slash (cs : List Char) (h : endsWithSlash cs = true) :
    cs.dropLast ++ ['/'] = cs := by
  unfold endsWithSlash at h
  exact List.dropLast_append_getLast? '/' (by simpa using h)

/-- C4, counterexample: the Tree Builder stores the record name `a/`
with the trailing separator still present, contradicting the claim that
the stored `Node.name` never ends in `/`. -/
theorem c4_name_cex :
    Option.map (fun t => t.children.map Node.name)
        (build_tree [(str "r/", 0), (str "a/", 4)]) = some [str "a/"] ∧
    endsWithSlash (str "a/") = true ∧
    str "a/" ≠ str "a" := ⟨rfl, rfl, by decide⟩

/-- C4, amended: the Tree Builder stores every record's name unchanged —
the trailing `/` included (the root as well); the single separator is
removed and re-added only by the tree-diagram renderer, whose label for
such a node is again exactly the stored name. -/
theorem c4_name_amended (name : List Char) (level : Nat) (rest : List Record)
    (h : endsWithSlash name = true) :
    (recordNode (name, level)).name = name ∧
    nodeLabel (recordNode (name, level)) = name ∧
    (∃ t, build_tree ((name, level) :: rest) = some t ∧ t.name = name) := by
  refine ⟨rfl, ?_, build_tree_root_name name level rest⟩
  unfold nodeLabel recordNode
  simp only [Node.name, Node.is_dir, h, if_pos]
  exact dropLast_slash name h

/-- Witness for C4 (amended) at the record `("a/", 4)`. -/
theorem c4_name_amended_witness :
    (recordNode (str "a/", 4)).name = str "a/" ∧
    nodeLabel (recordNode (str "a/", 4)) = str "a/" ∧
    (∃ t, build_tree [(str "a/", 4)] = some t ∧ t.name = str "a/") :=
  c4_name_amended (str "a/") 4 [] (by decide)

/-!
Preorder traversal of the node model (the order in which both renderers
emit lines), used to compare trees by names and flags.
-/

mutual

/-- All nodes of a tree in preorder. -/
def preorder : Node → List Node
  | .mk n d l cs => .mk n d l cs :: preorderL cs

/-- All nodes of a forest in preorder. -/
def preorderL : List Node → List Node
  | [] => []
  | c :: cs => preorder c ++ preorderL cs

end

/-- C1 is a code bug: rendering drops the final character of every file
name (src/main.py line 69 applies `[:-1]` to file names too), so the
render-then-parse round trip of the two-node tree `root/` with file
child `b` rebuilds a tree whose child is named by the empty string, not
`b`.  The conjuncts follow the pipeline: the original tree, its rendered
diagram (note the lost `b`), the reparsed tree, and the name mismatch. -/
theorem c1_roundtrip_code_bug :
    build_tree (parse_markdown (str "root/\n    b\n")) =
      some (.mk (str "root/") true 0 [.mk (str "b") false 4 []]) ∧
    generate_tree_text
        (some (.mk (str "root/") true 0 [.mk (str "b") false 4 []]))
        (str "    ") (str "├── ") (str "└── ") =
      str "└── root/\n    └── \n" ∧
    build_tree (parse_tree_text (str "└── root/\n    └── \n") (str "    ")) =
      some (.mk (str "root/") true 1 [.mk [] false 2 []]) ∧
    (preorder (.mk (str "root/") true 1 [.mk [] false 2 []])).map Node.name ≠
      (preorder (.mk (str "root/") true 0
        [.mk (str "b") false 4 []])).map Node.name :=
  ⟨rfl, rfl, rfl, by decide⟩

/-!
Specification-side description of the tree-diagram renderer (claim C5):
a list of lines, one per node in visit order, parametrized by the
formula for a node's label, joined with newlines.
-/

/-- Label formula exactly as the claim words it: the node's name followed
by a separator when the node is a directory. -/
def labelClaim (n : Node) : List Char :=
  n.name ++ (if n.is_dir then ['/'] else [])

mutual

/-- Line list for one node: its own line from the prefix, the connector
chosen by sibling position and the label formula, then the children's
lines under the extended prefix. -/
def specLinesNode (labelFn : Node → List Char)
    (indent_str branch_str last_branch_str : List Char) :
    Node → List Char → Bool → List (List Char)
  | .mk n d l cs, pfx, is_last =>
    (pfx ++ (if is_last then last_branch_str else branch_str)
        ++ labelFn (.mk n d l cs))
      :: specLinesChildren labelFn indent_str branch_str last_branch_str cs
          (pfx ++ (if is_last then indent_str else '│' :: indent_str))

/-- Line list for a forest: every child but the last is rendered with the
branch connector, the last with the last-branch connector. -/
def specLinesChildren (labelFn : Node → List Char)
    (indent_str branch_str last_branch_str : List Char) :
    List Node → List Char → List (List Char)
  | [], _ => []
  | [c], p => specLinesNode labelFn indent_str branch_str last_branch_str c p true
  | c :: c2 :: rest, p =>
    specLinesNode labelFn indent_str branch_str last_branch_str c p false
      ++ specLinesChildren labelFn indent_str branch_str last_branch_str
          (c2 :: rest) p

end

/-- Join a list of lines, terminating each with a newline. -/
def joinLines (ls : List (List Char)) : List Char :=
  (ls.map fun l => l ++ ['\n']).flatten

/-- Joining distributes over appending line lists. -/
theorem joinLines_append (a b : List (List Char)) :
    joinLines (a ++ b) = joinLines a ++ joinLines b := by
  simp [joinLines]

/-- C5, counterexample: on the one-node tree for the record `("root/", 0)`
the renderer emits `└── root/`, not the claimed
`prefix ++ connector ++ name ++ "/"` (which would read `└── root//`,
since the stored name already ends in the separator). -/
theorem c5_render_cex :
    generate_tree_text (some (.mk (str "root/") true 0 []))
        (str "    ") (str "├── ") (str "└── ") ≠
      joinLines (specLinesNode labelClaim (str "    ") (str "├── ") (str "└── ")
        (.mk (str "root/") true 0 []) [] true) := by decide

mutual

/-- The renderer emits, for each node, exactly the specification line
built from the amended label formula (name with its final character
removed, separator re-added for directories), then its children's lines. -/
theorem gtt_spec_node (ind br lb : List Char) :
    ∀ (t : Node) (pfx : List Char) (is_last : Bool),
      gttNode ind br lb t pfx is_last =
        joinLines (specLinesNode nodeLabel ind br lb t pfx is_last)
  | .mk n d l cs, pfx, is_last => by
    show pfx ++ (if is_last then lb else br) ++ nodeLabel (.mk n d l cs) ++ ['\n']
        ++ gttChildren ind br lb cs
            (pfx ++ (if is_last then ind else '│' :: ind)) =
      joinLines (specLinesNode nodeLabel ind br lb (.mk n d l cs) pfx is_last)
    rw [gtt_spec_children ind br lb cs
      (pfx ++ (if is_last then ind else '│' :: ind))]
    show _ = (pfx ++ (if is_last then lb else br) ++ nodeLabel (.mk n d l cs)
        ++ ['\n'])
      ++ joinLines (specLinesChildren nodeLabel ind br lb cs
          (pfx ++ (if is_last then ind else '│' :: ind)))
    simp [List.append_assoc]

/-- Forest version of `gtt_spec_node`. -/
theorem gtt_spec_children (ind br lb : List Char) :
    ∀ (cs : List Node) (p : List Char),
      gttChildren ind br lb cs p =
        joinLines (specLinesChildren nodeLabel ind br lb cs p)
  | [], _ => rfl
  | [c], p => gtt_spec_node ind br lb c p true
  | c :: c2 :: rest, p => by
    show gttNode ind br lb c p false ++ gttChildren ind br lb (c2 :: rest) p = _
    rw [gtt_spec_node ind br lb c p false,
      gtt_spec_children ind br lb (c2 :: rest) p]
    show _ = joinLines (specLinesNode nodeLabel ind br lb c p false
      ++ specLinesChildren nodeLabel ind br lb (c2 :: rest) p)
    rw [joinLines_append]

end

/-- C5, amended: the rendered text is exactly one line per node in visit
order — prefix, then the branch connector or, for a last sibling and for
the root, the last-branch connector, then the label `name[:-1]` plus a
separator for directories — each child receiving the prefix extended by
the indentation unit after a last sibling and by the vertical glyph plus
the indentation unit otherwise, the root starting from the empty prefix. -/
theorem c5_render_amended (ind br lb : List Char) (t : Node) :
    generate_tree_text (some t) ind br lb =
      joinLines (specLinesNode nodeLabel ind br lb t [] true) :=
  gtt_spec_node ind br lb t [] true

/-!
Claim C7: the outline renderer as a pure projection of stored depths.
-/

/-- Specification-side outline line for a node at a given level: the
four-space indentation unit repeated `lvl` times, the stored name, and a
line terminator. -/
def gmLine (lvl : Nat) (n : Node) : List Char :=
  (List.replicate lvl (str "    ")).flatten ++ n.name ++ ['\n']

mutual

/-- The outline renderer emits the node's own line at the level it is
called with, followed by one line per descendant in preorder, each at
the descendant's own stored level. -/
theorem gm_spec_node : ∀ (t : Node) (lvl : Nat),
    gmNode t lvl = gmLine lvl t
      ++ ((preorderL t.children).map fun n => gmLine n.level n).flatten
  | .mk n d l cs, lvl => by
    show (List.replicate lvl (str "    ")).flatten ++ n ++ ['\n']
        ++ gmChildren cs = _
    rw [gm_spec_children cs]
    show _ = (List.replicate lvl (str "    ")).flatten
        ++ (Node.mk n d l cs).name ++ ['\n']
      ++ ((preorderL cs).map fun n => gmLine n.level n).flatten
    simp [Node.name, Node.children, List.append_assoc]

/-- Forest version of `gm_spec_node`. -/
theorem gm_spec_children : ∀ cs : List Node,
    gmChildren cs = ((preorderL cs).map fun n => gmLine n.level n).flatten
  | [] => rfl
  | c :: cs => by
    show gmNode c c.level ++ gmChildren cs = _
    rw [gm_spec_node c c.level, gm_spec_children cs]
    show _ = ((preorder c ++ preorderL cs).map fun n => gmLine n.level n).flatten
    cases c with
    | mk n d l ccs =>
      show _ = (((Node.mk n d l ccs :: preorderL ccs) ++ preorderL cs).map
        fun n => gmLine n.level n).flatten
      simp [Node.level, Node.children, List.append_assoc]

end

/-- C7: the outline renderer emits exactly one line per node in preorder;
each line is the indentation unit repeated the node's stored depth times
followed by the node's name and a terminator, except that the root line
is always emitted at depth 0; no depth is recomputed from the tree
shape. -/
theorem c7_outline_render (t : Node) :
    generate_markdown (some t) = gmLine 0 t
      ++ ((preorderL t.children).map fun n => gmLine n.level n).flatten :=
  gm_spec_node t 0

/-!
Claim C6: per-line behavior of the tree-diagram parser.
-/

/-- Number of plain space characters in a line. -/
def countSpaces : List Char → Nat
  | [] => 0
  | c :: rest => (if c == ' ' then 1 else 0) + countSpaces rest

/-- Index of the last space or tree-drawing glyph of a line, if any. -/
def lastMarkIdx : List Char → Option Nat
  | [] => none
  | c :: rest =>
    match lastMarkIdx rest with
    | some k => some (k + 1)
    | none => if isMark c then some 0 else none

/-- Position immediately after the last space or tree-drawing glyph of a
line (0 if the line has none): the claimed start of the name substring. -/
def nameStartSpec (line : List Char) : Nat :=
  match lastMarkIdx line with
  | some k => k + 1
  | none => 0

/-- Unfolding of `ptScan` on the empty line. -/
theorem ptScan_nil (len i lvl ns ci : Nat) :
    ptScan len [] i lvl ns ci = (lvl, ns) := rfl

/-- Unfolding of `ptScan` on a character. -/
theorem ptScan_cons (len : Nat) (c : Char) (rest : List Char)
    (i lvl ns ci : Nat) :
    ptScan len (c :: rest) i lvl ns ci =
      if c == ' ' then
        (if ci + 1 == len then
          ptScan len rest (i + 1) (lvl + 1) (if isMark c then i + 1 else ns) 0
        else
          ptScan len rest (i + 1) lvl (if isMark c then i + 1 else ns) (ci + 1))
      else ptScan len rest (i + 1) lvl (if isMark c then i + 1 else ns) ci := rfl

/-- The level component of the fused scan counts how many times the
running space count reaches the indentation-unit length: it equals the
total space count divided by the unit length. -/
theorem ptScan_level (len : Nat) (hlen : 0 < len) :
    ∀ (cs : List Char) (i lvl ns ci : Nat), ci < len →
      (ptScan len cs i lvl ns ci).1 = lvl + (ci + countSpaces cs) / len := by
  intro cs
  induction cs with
  | nil =>
    intro i lvl ns ci hci
    rw [ptScan_nil]
    show lvl = lvl + (ci + 0) / len
    rw [Nat.add_zero, Nat.div_eq_of_lt hci]
    rfl
  | cons c rest ih =>
    intro i lvl ns ci hci
    rw [ptScan_cons]
    by_cases hsp : (c == ' ') = true
    · rw [if_pos hsp]
      by_cases hfull : (ci + 1 == len) = true
      · rw [if_pos hfull]
        have hlen2 : ci + 1 = len := by simpa using hfull
        rw [ih (i + 1) (lvl + 1) _ 0 hlen]
        show lvl + 1 + (0 + countSpaces rest) / len =
          lvl + (ci + ((if c == ' ' then 1 else 0) + countSpaces rest)) / len
        rw [if_pos hsp, Nat.zero_add, ← Nat.add_assoc, ← hlen2]
        have : ci + 1 + countSpaces rest = countSpaces rest + (ci + 1) := by omega
        rw [this, hlen2, Nat.add_div_right _ hlen]
        omega
      · rw [if_neg hfull]
        have hlt : ci + 1 < len := by
          have hne2 : ci + 1 ≠ len := fun e => hfull (by simp [e])
          omega
        rw [ih (i + 1) lvl _ (ci + 1) hlt]
        show lvl + (ci + 1 + countSpaces rest) / len =
          lvl + (ci + ((if c == ' ' then 1 else 0) + countSpaces rest)) / len
        rw [if_pos hsp]
        have : ci + 1 + countSpaces rest = ci + (1 + countSpaces rest) := by omega
        rw [this]
    · rw [if_neg hsp]
      rw [ih (i + 1) lvl _ ci hci]
      show lvl + (ci + countSpaces rest) / len =
        lvl + (ci + ((if c == ' ' then 1 else 0) + countSpaces rest)) / len
      rw [if_neg hsp, Nat.zero_add]

/-- The name-start component of the fused scan is the position right
after the last space or tree-drawing glyph, and the initial value when
the line has none. -/
theorem ptScan_ns (len : Nat) :
    ∀ (cs : List Char) (i lvl ns ci : Nat),
      (ptScan len cs i lvl ns ci).2 =
        match lastMarkIdx cs with
        | some k => i + k + 1
        | none => ns := by
  intro cs
  induction cs with
  | nil => intro i lvl ns ci; rfl
  | cons c rest ih =>
    intro i lvl ns ci
    rw [ptScan_cons]
    have step : ∀ lvl2 ci2,
        (ptScan len rest (i + 1) lvl2 (if isMark c then i + 1 else ns) ci2).2 =
          match lastMarkIdx (c :: rest) with
          | some k => i + k + 1
          | none => ns := by
      intro lvl2 ci2
      rw [ih (i + 1) lvl2 _ ci2]
      show (match lastMarkIdx rest with
            | some k => i + 1 + k + 1
            | none => if isMark c then i + 1 else ns) =
          (match (match lastMarkIdx rest with
                  | some k => some (k + 1)
                  | none => if isMark c then some 0 else none) with
            | some k => i + k + 1
            | none => ns)
      cases hrest : lastMarkIdx rest with
      | some k =>
        show i + 1 + k + 1 = i + (k + 1) + 1
        omega
      | none =>
        by_cases hm : isMark c = true
        · rw [if_pos hm, if_pos hm]
        · rw [if_neg hm, if_neg hm]
    by_cases hsp : (c == ' ') = true
    · rw [if_pos hsp]
      by_cases hfull : (ci + 1 == len) = true
      · rw [if_pos hfull]; exact step (lvl + 1) 0
      · rw [if_neg hfull]; exact step lvl (ci + 1)
    · rw [if_neg hsp]; exact step lvl ci

/-- A text without newlines and not empty is a single line. -/
theorem splitlinesGo_no_nl (cs : List Char) :
    ∀ acc, '\n' ∉ cs → splitlinesGo cs acc = [acc.reverse ++ cs] := by
  induction cs with
  | nil => intro acc _; simp [splitlinesGo]
  | cons c rest ih =>
    intro acc h
    have hc : ¬ c = '\n' := fun e => h (by rw [e]; exact List.mem_cons_self _ _)
    show (if c = '\n' then _ else splitlinesGo rest (c :: acc)) = _
    rw [if_neg hc, ih (c :: acc) (fun hm => h (List.mem_cons_of_mem c hm))]
    simp

/-- `splitlines` of a nonempty newline-free text is that single line. -/
theorem splitlines_single (line : List Char) (hnl : '\n' ∉ line)
    (hne : line ≠ []) : splitlines line = [line] := by
  cases line with
  | nil => exact absurd rfl hne
  | cons c rest =>
    show splitlinesGo (c :: rest) [] = [c :: rest]
    rw [splitlinesGo_no_nl (c :: rest) [] hnl]
    simp

/-- C6: on any single non-blank line, the tree-diagram parser produces
exactly one record; its depth is the number of times the running space
count fills the indentation unit — the line's space count divided by the
unit length — plus one more level when the line contains a vertical or
branch glyph; its name is the trimmed remainder of the line starting
right after the last space or tree-drawing glyph. -/
theorem c6_parse_line (line ind : List Char) (hlen : 0 < ind.length)
    (hnb : rstrip line ≠ []) (hnl : '\n' ∉ line) :
    parse_tree_text line ind =
      [(strip ((rstrip line).drop (nameStartSpec (rstrip line))),
        countSpaces (rstrip line) / ind.length
          + (if hasGlyph (rstrip line) then 1 else 0))] := by
  have hne : line ≠ [] := by
    intro e
    rw [e] at hnb
    exact hnb rfl
  unfold parse_tree_text
  rw [splitlines_single line hnl hne]
  rw [List.filterMap_cons]
  simp only [if_neg hnb]
  have h1 : (ptScan ind.length (rstrip line) 0 0 0 0).1 =
      countSpaces (rstrip line) / ind.length := by
    rw [ptScan_level ind.length hlen (rstrip line) 0 0 0 0 hlen]
    rw [Nat.zero_add, Nat.zero_add]
  have h2 : (ptScan ind.length (rstrip line) 0 0 0 0).2 =
      nameStartSpec (rstrip line) := by
    rw [ptScan_ns ind.length (rstrip line) 0 0 0 0]
    unfold nameStartSpec
    cases lastMarkIdx (rstrip line) with
    | some k => show 0 + k + 1 = k + 1; omega
    | none => rfl
  rw [h1, h2]
  simp

/-- Witness for C6 at the line `└── a/` with the default 4-space unit. -/
theorem c6_parse_line_witness :
    parse_tree_text (str "└── a/") (str "    ") =
      [(strip ((rstrip (str "└── a/")).drop
          (nameStartSpec (rstrip (str "└── a/")))),
        countSpaces (rstrip (str "└── a/")) / (str "    ").length
          + (if hasGlyph (rstrip (str "└── a/")) then 1 else 0))] :=
  c6_parse_line (str "└── a/") (str "    ") (by decide) (by decide) (by decide)

/-!
Claim C8: whether file nodes can acquire children.
-/

mutual

/-- Every node of the tree with a false directory flag has no children. -/
def goodN : Node → Bool
  | .mk _ d _ cs => (d || cs.isEmpty) && goodL cs

/-- Forest version of `goodN`. -/
def goodL : List Node → Bool
  | [] => true
  | c :: cs => goodN c && goodL cs

end

/-- C8, counterexample: for the record sequence `r/ ; b ; c` with depths
0, 4, 8, the Tree Builder pushes the file node `b` on the stack (a
tolerant-parse policy) and then attaches `c` to it, so the non-root file
node `b` has a child. -/
theorem c8_file_children_cex :
    build_tree [(str "r/", 0), (str "b", 4), (str "c", 8)] =
      some (.mk (str "r/") true 0
        [.mk (str "b") false 4 [.mk (str "c") false 8 []]]) ∧
    (Node.mk (str "b") false 4 [Node.mk (str "c") false 8 []]).is_dir = false ∧
    (Node.mk (str "b") false 4 [Node.mk (str "c") false 8 []]).children ≠ [] :=
  ⟨rfl, rfl, fun h => List.cons_ne_nil _ _ h⟩

/-- Well-formedness of a record sequence relative to the directory flag
`d` and level `l` of the previously inserted record: whenever a record
is immediately followed by a strictly deeper record, it must denote a
directory.  This is exactly the condition under which no file node can
ever be the stack top that a deeper record attaches below. -/
def okFromB : Bool → Nat → List Record → Bool
  | _, _, [] => true
  | d, l, (n, lv) :: rest =>
    (decide (lv ≤ l) || d) && okFromB (endsWithSlash n) lv rest

/-- All frames strictly below the stack top are directories with
well-formed accumulated children. -/
def framesDirOK : List Node → Bool
  | [] => true
  | f :: rest => f.is_dir && goodL f.children && framesDirOK rest

/-- Builder-stack invariant: the top frame is well formed (a file top has
no children yet), and everything below it is a directory. -/
def stackOK : List Node → Bool
  | [] => true
  | f :: rest => goodN f && framesDirOK rest

/-- The recorded root result, when present, is well formed. -/
def rOK : Option Node → Bool
  | none => true
  | some t => goodN t

/-- `goodL` distributes over appending forests. -/
theorem goodL_append : ∀ (a b : List Node), goodL (a ++ b) = (goodL a && goodL b)
  | [], b => by simp [goodL]
  | c :: a2, b => by
    simp [goodL, goodL_append a2 b, Bool.and_assoc]

/-- A well-formed node has a well-formed forest of children. -/
theorem goodL_of_goodN (n : Node) (h : goodN n = true) :
    goodL n.children = true := by
  cases n with
  | mk nm d l cs =>
    simp only [goodN, Bool.and_eq_true] at h
    exact h.2

/-- Attaching a well-formed subtree to a directory node with well-formed
children keeps the node well formed. -/
theorem goodN_addChild (g c : Node) (hd : g.is_dir = true)
    (hgl : goodL g.children = true) (hc : goodN c = true) :
    goodN (addChild g c) = true := by
  cases g with
  | mk nm d l cs =>
    have hd2 : d = true := hd
    subst hd2
    show ((true || (cs ++ [c]).isEmpty) && goodL (cs ++ [c])) = true
    rw [Bool.true_or, Bool.true_and, goodL_append]
    have hgl2 : goodL cs = true := hgl
    simp [goodL, hgl2, hc]

/-- A freshly built record node is well formed: it has no children. -/
theorem goodN_recordNode (rec : Record) : goodN (recordNode rec) = true := by
  simp [recordNode, goodN, goodL, Bool.or_true]

/-- The pop loop body keeps the invariant: the result stack is all
directories, and the recorded result stays well formed.  The hypothesis
on the top frame is the well-formedness condition extracted from the
incoming record: either the top is popped (its level at least the
incoming one) or it is a directory. -/
theorem popGo_good : ∀ (rest : List Node) (lvl : Nat) (f : Node) (r : Option Node),
    goodN f = true → framesDirOK rest = true → rOK r = true →
    (lvl ≤ f.level ∨ f.is_dir = true) →
    framesDirOK (popGo lvl f rest r).1 = true ∧
      rOK (popGo lvl f rest r).2 = true := by
  intro rest
  induction rest with
  | nil =>
    intro lvl f r hf hrest hr hcond
    rw [popGo_nil]
    by_cases h : lvl ≤ f.level
    · rw [if_pos h]
      refine ⟨rfl, ?_⟩
      cases r with
      | some t => exact hr
      | none => exact hf
    · rw [if_neg h]
      have hd : f.is_dir = true := hcond.resolve_left h
      refine ⟨?_, hr⟩
      simp [framesDirOK, hd, goodL_of_goodN f hf]
  | cons g rest2 ih =>
    intro lvl f r hf hrest hr hcond
    rw [popGo_cons]
    by_cases h : lvl ≤ f.level
    · rw [if_pos h]
      have hg : g.is_dir = true ∧ goodL g.children = true ∧
          framesDirOK rest2 = true := by
        simpa [framesDirOK, Bool.and_eq_true, and_assoc] using hrest
      refine ih lvl (addChild g f) r ?_ hg.2.2 hr ?_
      · exact goodN_addChild g f hg.1 hg.2.1 hf
      · right
        rw [addChild_is_dir]
        exact hg.1
    · rw [if_neg h]
      have hd : f.is_dir = true := hcond.resolve_left h
      have hg : g.is_dir = true ∧ goodL g.children = true ∧
          framesDirOK rest2 = true := by
        simpa [framesDirOK, Bool.and_eq_true, and_assoc] using hrest
      refine ⟨?_, hr⟩
      simp [framesDirOK, hd, goodL_of_goodN f hf, hg.1, hg.2.1, hg.2.2]

/-- The pop loop keeps the invariant. -/
theorem popLoop_good (lvl : Nat) (stack : List Node) (r : Option Node)
    (hs : stackOK stack = true) (hr : rOK r = true)
    (hcond : ∀ f rest2, stack = f :: rest2 → lvl ≤ f.level ∨ f.is_dir = true) :
    framesDirOK (popLoop lvl stack r).1 = true ∧
      rOK (popLoop lvl stack r).2 = true := by
  cases stack with
  | nil => exact ⟨rfl, hr⟩
  | cons f rest =>
    have hs2 : goodN f = true ∧ framesDirOK rest = true := by
      simpa [stackOK, Bool.and_eq_true] using hs
    exact popGo_good rest lvl f r hs2.1 hs2.2 hr (hcond f rest rfl)

/-- The record fold keeps the invariant under the well-formedness
condition threaded from the top frame's directory flag and level. -/
theorem fold_good (l : List Record) :
    ∀ (f : Node) (rest : List Node) (r : Option Node),
      stackOK (f :: rest) = true → rOK r = true →
      okFromB f.is_dir f.level l = true →
      stackOK (l.foldl build_step (f :: rest, r)).1 = true ∧
        rOK (l.foldl build_step (f :: rest, r)).2 = true := by
  induction l with
  | nil =>
    intro f rest r hs hr _
    exact ⟨hs, hr⟩
  | cons rec l2 ih =>
    intro f rest r hs hr hok
    obtain ⟨n, lv⟩ := rec
    rw [List.foldl_cons]
    have hok2 : (lv ≤ f.level ∨ f.is_dir = true) ∧
        okFromB (endsWithSlash n) lv l2 = true := by
      simpa [okFromB, Bool.and_eq_true, Bool.or_eq_true,
        decide_eq_true_eq] using hok
    have hp := popLoop_good lv (f :: rest) r hs hr
      (fun f2 r2 he => by
        injection he with h1 h2
        subst h1
        exact hok2.1)
    have hstep : build_step (f :: rest, r) (n, lv) =
        (recordNode (n, lv) :: (popLoop lv (f :: rest) r).1,
          (popLoop lv (f :: rest) r).2) := rfl
    rw [hstep]
    refine ih (recordNode (n, lv)) (popLoop lv (f :: rest) r).1
      (popLoop lv (f :: rest) r).2 ?_ hp.2 ?_
    · show (goodN (recordNode (n, lv)) &&
        framesDirOK (popLoop lv (f :: rest) r).1) = true
      rw [goodN_recordNode, hp.1]
      rfl
    · exact hok2.2

/-- Collapsing a stack that satisfies the invariant yields a well-formed
result. -/
theorem collapseGo_good : ∀ (rest : List Node) (f : Node) (r : Option Node),
    goodN f = true → framesDirOK rest = true → rOK r = true →
    rOK (collapseGo f rest r) = true := by
  intro rest
  induction rest with
  | nil =>
    intro f r hf _ hr
    cases r with
    | some t => exact hr
    | none => exact hf
  | cons g rest2 ih =>
    intro f r hf hrest hr
    have hg : g.is_dir = true ∧ goodL g.children = true ∧
        framesDirOK rest2 = true := by
      simpa [framesDirOK, Bool.and_eq_true, and_assoc] using hrest
    exact ih (addChild g f) r (goodN_addChild g f hg.1 hg.2.1 hf) hg.2.2 hr

/-- Collapse entry point version of `collapseGo_good`. -/
theorem collapse_good (stack : List Node) (r : Option Node)
    (hs : stackOK stack = true) (hr : rOK r = true) :
    rOK (collapse stack r) = true := by
  cases stack with
  | nil => exact hr
  | cons f rest =>
    have hs2 : goodN f = true ∧ framesDirOK rest = true := by
      simpa [stackOK, Bool.and_eq_true] using hs
    exact collapseGo_good rest f r hs2.1 hs2.2 hr

/-- C8, amended: in the tree built from a record sequence, every node
whose directory flag is false has zero children, provided the sequence
is well formed in the sense that a record immediately followed by a
strictly deeper record always names a directory (trailing `/`), the
leading root record counting as a directory.  Without that hypothesis
the property fails (`build_tree` deliberately pushes file nodes so that
deeper records attach to them): see the counterexample. -/
theorem c8_file_children_amended (n0 : List Char) (l0 : Nat)
    (rest : List Record) (t : Node) (hok : okFromB true l0 rest = true)
    (hbt : build_tree ((n0, l0) :: rest) = some t) :
    goodN t = true := by
  have hfold := fold_good rest (Node.mk n0 true l0 []) [] none
    (by simp [stackOK, goodN, goodL, framesDirOK]) rfl hok
  have hres := collapse_good
    (rest.foldl build_step ([Node.mk n0 true l0 []], none)).1
    (rest.foldl build_step ([Node.mk n0 true l0 []], none)).2
    hfold.1 hfold.2
  have hbt2 : collapse
      (rest.foldl build_step ([Node.mk n0 true l0 []], none)).1
      (rest.foldl build_step ([Node.mk n0 true l0 []], none)).2 = some t := hbt
  rw [hbt2] at hres
  exact hres

/-- Witness for C8 (amended) on the well-formed sequence `r/ ; a/ ; b`. -/
theorem c8_file_children_amended_witness :
    goodN (.mk (str "r/") true 0
      [.mk (str "a/") true 4 [.mk (str "b") false 8 []]]) = true :=
  c8_file_children_amended (str "r/") 0 [(str "a/", 4), (str "b", 8)]
    (.mk (str "r/") true 0 [.mk (str "a/") true 4 [.mk (str "b") false 8 []]])
    (by decide) rfl

/-!
Claim C9: the materializer never overwrites an existing filesystem
entry.  `create_files_and_dirs` only ever adds a binding for a path that
has no binding yet (`os.makedirs` tolerates existing directories and
fails on files in the way; the file branch is guarded by
`os.path.exists`), so every pre-existing entry survives with its exact
value.
-/

/-- Adding a binding for an unbound path preserves every lookup. -/
theorem lookupFS_set_preserve (fs : FS) (p q : FsPath) (e e2 : FsEntry)
    (hq : lookupFS fs q = none) (h : lookupFS fs p = some e) :
    lookupFS (setFS fs q e2) p = some e := by
  show (if q = p then some e2 else lookupFS fs p) = some e
  by_cases hqp : q = p
  · rw [hqp] at hq
    rw [hq] at h
    cases h
  · rw [if_neg hqp]
    exact h

/-- One directory creation preserves every existing entry. -/
theorem mkdirOne_preserve (fs fs2 : FS) (p q : FsPath) (e : FsEntry)
    (hm : mkdirOne fs p = some fs2) (h : lookupFS fs q = some e) :
    lookupFS fs2 q = some e := by
  unfold mkdirOne at hm
  cases hl : lookupFS fs p with
  | some ent =>
    rw [hl] at hm
    cases ent with
    | dir =>
      injection hm with h2
      rw [← h2]
      exact h
    | file sz => cases hm
  | none =>
    rw [hl] at hm
    injection hm with h2
    rw [← h2]
    exact lookupFS_set_preserve fs q p e FsEntry.dir hl h

/-- The directory-chain creation preserves every existing entry. -/
theorem makedirsGo_preserve : ∀ (ps : List FsPath) (fs fs2 : FS) (q : FsPath)
    (e : FsEntry), makedirsGo fs ps = some fs2 → lookupFS fs q = some e →
    lookupFS fs2 q = some e := by
  intro ps
  induction ps with
  | nil =>
    intro fs fs2 q e hm h
    injection hm with h2
    rw [← h2]
    exact h
  | cons p ps2 ih =>
    intro fs fs2 q e hm h
    have hm2 : (match mkdirOne fs p with
        | none => none
        | some g => makedirsGo g ps2) = some fs2 := hm
    cases ho : mkdirOne fs p with
    | none => rw [ho] at hm2; cases hm2
    | some g =>
      rw [ho] at hm2
      exact ih g fs2 q e hm2 (mkdirOne_preserve fs g p q e ho h)

/-- `makedirs` preserves every existing entry. -/
theorem makedirs_preserve (fs fs2 : FS) (p q : FsPath) (e : FsEntry)
    (hm : makedirs fs p = some fs2) (h : lookupFS fs q = some e) :
    lookupFS fs2 q = some e :=
  makedirsGo_preserve (ancestorsOf p) fs fs2 q e hm h

mutual

/-- A successful materializer run preserves every pre-existing entry,
directory or file, with its exact value: nothing is deleted, recreated
or truncated. -/
theorem create_preserve : ∀ (node : Node) (cp : FsPath) (fs fs2 : FS)
    (q : FsPath) (e : FsEntry), create_files_and_dirs node cp fs = some fs2 →
    lookupFS fs q = some e → lookupFS fs2 q = some e
  | .mk nm d l cs, cp, fs, fs2, q, e => by
    intro hc hq
    cases d with
    | true =>
      have hc2 : (match makedirs fs (cp ++ [nm]) with
          | none => none
          | some fs1 => createChildren cs (cp ++ [nm]) fs1) = some fs2 := hc
      cases hm : makedirs fs (cp ++ [nm]) with
      | none => rw [hm] at hc2; cases hc2
      | some fs1 =>
        rw [hm] at hc2
        exact createChildren_preserve cs (cp ++ [nm]) fs1 fs2 q e hc2
          (makedirs_preserve fs fs1 (cp ++ [nm]) q e hm hq)
    | false =>
      have hc2 : (if (lookupFS fs (cp ++ [nm])).isSome then some fs
          else some (setFS fs (cp ++ [nm]) (FsEntry.file 0))) = some fs2 := hc
      by_cases hex : (lookupFS fs (cp ++ [nm])).isSome = true
      · rw [if_pos hex] at hc2
        injection hc2 with h2
        rw [← h2]
        exact hq
      · rw [if_neg hex] at hc2
        injection hc2 with h2
        rw [← h2]
        exact lookupFS_set_preserve fs q (cp ++ [nm]) e (FsEntry.file 0)
          (Option.not_isSome_iff_eq_none.mp hex) hq

/-- Forest version of `create_preserve`. -/
theorem createChildren_preserve : ∀ (cs : List Node) (p : FsPath) (fs fs2 : FS)
    (q : FsPath) (e : FsEntry), createChildren cs p fs = some fs2 →
    lookupFS fs q = some e → lookupFS fs2 q = some e
  | [], p, fs, fs2, q, e => by
    intro hc hq
    injection hc with h2
    rw [← h2]
    exact hq
  | c :: cs2, p, fs, fs2, q, e => by
    intro hc hq
    have hc2 : (match create_files_and_dirs c p fs with
        | none => none
        | some fsx => createChildren cs2 p fsx) = some fs2 := hc
    cases hm : create_files_and_dirs c p fs with
    | none => rw [hm] at hc2; cases hc2
    | some fsx =>
      rw [hm] at hc2
      exact createChildren_preserve cs2 p fsx fs2 q e hc2
        (create_preserve c p fs fsx q e hm hq)

end

/-!
Second-run behavior of the materializer: after a successful run, every
path the tree needs already exists with the right kind, so a second run
succeeds and changes nothing.
-/

mutual

/-- All filesystem effects of materializing this node below `cp` are
already present in `fs`. -/
def doneN : Node → FsPath → FS → Bool
  | .mk nm d _ cs, cp, fs =>
    if d then
      ((ancestorsOf (cp ++ [nm])).all fun q =>
          decide (lookupFS fs q = some FsEntry.dir))
        && doneL cs (cp ++ [nm]) fs
    else (lookupFS fs (cp ++ [nm])).isSome

/-- Forest version of `doneN`. -/
def doneL : List Node → FsPath → FS → Bool
  | [], _, _ => true
  | c :: cs, p, fs => doneN c p fs && doneL cs p fs

end

mutual

/-- `doneN` only asserts the presence of entries, so it survives any
filesystem growth that preserves entries. -/
theorem doneN_mono : ∀ (node : Node) (cp : FsPath) (fs fs2 : FS),
    (∀ q e, lookupFS fs q = some e → lookupFS fs2 q = some e) →
    doneN node cp fs = true → doneN node cp fs2 = true
  | .mk nm d l cs, cp, fs, fs2 => by
    intro hmono hd
    cases d with
    | true =>
      have hd2 : ((ancestorsOf (cp ++ [nm])).all fun q =>
            decide (lookupFS fs q = some FsEntry.dir)) = true ∧
          doneL cs (cp ++ [nm]) fs = true := by
        simpa [doneN, Bool.and_eq_true] using hd
      show (((ancestorsOf (cp ++ [nm])).all fun q =>
            decide (lookupFS fs2 q = some FsEntry.dir))
          && doneL cs (cp ++ [nm]) fs2) = true
      rw [Bool.and_eq_true]
      constructor
      · rw [List.all_eq_true] at hd2 ⊢
        intro q hqmem
        have := hd2.1 q hqmem
        rw [decide_eq_true_eq] at this ⊢
        exact hmono q FsEntry.dir this
      · exact doneL_mono cs (cp ++ [nm]) fs fs2 hmono hd2.2
    | false =>
      have hd2 : (lookupFS fs (cp ++ [nm])).isSome = true := hd
      show (lookupFS fs2 (cp ++ [nm])).isSome = true
      obtain ⟨e, he⟩ := Option.isSome_iff_exists.mp hd2
      rw [hmono (cp ++ [nm]) e he]
      rfl

/-- Forest version of `doneN_mono`. -/
theorem doneL_mono : ∀ (cs : List Node) (p : FsPath) (fs fs2 : FS),
    (∀ q e, lookupFS fs q = some e → lookupFS fs2 q = some e) →
    doneL cs p fs = true → doneL cs p fs2 = true
  | [], _, _, _ => by
    intro _ _
    rfl
  | c :: cs2, p, fs, fs2 => by
    intro hmono hd
    have hd2 : doneN c p fs = true ∧ doneL cs2 p fs = true := by
      simpa [doneL, Bool.and_eq_true] using hd
    show (doneN c p fs2 && doneL cs2 p fs2) = true
    rw [Bool.and_eq_true]
    exact ⟨doneN_mono c p fs fs2 hmono hd2.1,
      doneL_mono cs2 p fs fs2 hmono hd2.2⟩

end

/-- One directory creation records the directory. -/
theorem mkdirOne_post (fs fs2 : FS) (p : FsPath)
    (hm : mkdirOne fs p = some fs2) : lookupFS fs2 p = some FsEntry.dir := by
  unfold mkdirOne at hm
  cases hl : lookupFS fs p with
  | some ent =>
    rw [hl] at hm
    cases ent with
    | dir =>
      injection hm with h2
      rw [← h2]
      exact hl
    | file sz => cases hm
  | none =>
    rw [hl] at hm
    injection hm with h2
    rw [← h2]
    show (if p = p then some FsEntry.dir else lookupFS fs p) = some FsEntry.dir
    rw [if_pos rfl]

/-- After the directory-chain creation, every listed path is a directory. -/
theorem makedirsGo_post : ∀ (ps : List FsPath) (fs fs2 : FS),
    makedirsGo fs ps = some fs2 →
    ∀ q ∈ ps, lookupFS fs2 q = some FsEntry.dir := by
  intro ps
  induction ps with
  | nil =>
    intro fs fs2 _ q hq
    cases hq
  | cons p ps2 ih =>
    intro fs fs2 hm q hq
    have hm2 : (match mkdirOne fs p with
        | none => none
        | some g => makedirsGo g ps2) = some fs2 := hm
    cases ho : mkdirOne fs p with
    | none => rw [ho] at hm2; cases hm2
    | some g =>
      rw [ho] at hm2
      cases List.mem_cons.mp hq with
      | inl he =>
        rw [he]
        exact makedirsGo_preserve ps2 g fs2 p FsEntry.dir hm2
          (mkdirOne_post fs g p ho)
      | inr hmem => exact ih g fs2 hm2 q hmem

/-- Creating a chain of directories that all already exist is a no-op. -/
theorem makedirsGo_id : ∀ (ps : List FsPath) (fs : FS),
    (∀ q ∈ ps, lookupFS fs q = some FsEntry.dir) →
    makedirsGo fs ps = some fs := by
  intro ps
  induction ps with
  | nil => intro fs _; rfl
  | cons p ps2 ih =>
    intro fs hall
    show (match mkdirOne fs p with
        | none => none
        | some g => makedirsGo g ps2) = some fs
    have ho : mkdirOne fs p = some fs := by
      unfold mkdirOne
      rw [hall p (List.mem_cons_self p ps2)]
    rw [ho]
    exact ih fs fun q hq => hall q (List.mem_cons_of_mem p hq)

mutual

/-- After a successful run, all effects of the node are present. -/
theorem create_done : ∀ (node : Node) (cp : FsPath) (fs fs2 : FS),
    create_files_and_dirs node cp fs = some fs2 → doneN node cp fs2 = true
  | .mk nm d l cs, cp, fs, fs2 => by
    intro hc
    cases d with
    | true =>
      have hc2 : (match makedirs fs (cp ++ [nm]) with
          | none => none
          | some fs1 => createChildren cs (cp ++ [nm]) fs1) = some fs2 := hc
      cases hm : makedirs fs (cp ++ [nm]) with
      | none => rw [hm] at hc2; cases hc2
      | some fs1 =>
        rw [hm] at hc2
        show (((ancestorsOf (cp ++ [nm])).all fun q =>
              decide (lookupFS fs2 q = some FsEntry.dir))
            && doneL cs (cp ++ [nm]) fs2) = true
        rw [Bool.and_eq_true]
        constructor
        · rw [List.all_eq_true]
          intro q hqmem
          rw [decide_eq_true_eq]
          exact createChildren_preserve cs (cp ++ [nm]) fs1 fs2 q FsEntry.dir
            hc2 (makedirsGo_post (ancestorsOf (cp ++ [nm])) fs fs1 hm q hqmem)
        · exact createChildren_done cs (cp ++ [nm]) fs1 fs2 hc2
    | false =>
      have hc2 : (if (lookupFS fs (cp ++ [nm])).isSome then some fs
          else some (setFS fs (cp ++ [nm]) (FsEntry.file 0))) = some fs2 := hc
      show (lookupFS fs2 (cp ++ [nm])).isSome = true
      by_cases hex : (lookupFS fs (cp ++ [nm])).isSome = true
      · rw [if_pos hex] at hc2
        injection hc2 with h2
        rw [← h2]
        exact hex
      · rw [if_neg hex] at hc2
        injection hc2 with h2
        rw [← h2]
        show (if cp ++ [nm] = cp ++ [nm] then some (FsEntry.file 0)
            else lookupFS fs (cp ++ [nm])).isSome = true
        rw [if_pos rfl]
        rfl

/-- Forest version of `create_done`. -/
theorem createChildren_done : ∀ (cs : List Node) (p : FsPath) (fs fs2 : FS),
    createChildren cs p fs = some fs2 → doneL cs p fs2 = true
  | [], _, _, _ => by
    intro _
    rfl
  | c :: cs2, p, fs, fs2 => by
    intro hc
    have hc2 : (match create_files_and_dirs c p fs with
        | none => none
        | some fsx => createChildren cs2 p fsx) = some fs2 := hc
    cases hm : create_files_and_dirs c p fs with
    | none => rw [hm] at hc2; cases hc2
    | some fsx =>
      rw [hm] at hc2
      show (doneN c p fs2 && doneL cs2 p fs2) = true
      rw [Bool.and_eq_true]
      exact ⟨doneN_mono c p fsx fs2
          (fun q e he => createChildren_preserve cs2 p fsx fs2 q e hc2 he)
          (create_done c p fs fsx hm),
        createChildren_done cs2 p fsx fs2 hc2⟩

end

mutual

/-- Materializing a node whose effects are all present changes nothing. -/
theorem create_done_id : ∀ (node : Node) (cp : FsPath) (fs : FS),
    doneN node cp fs = true → create_files_and_dirs node cp fs = some fs
  | .mk nm d l cs, cp, fs => by
    intro hd
    cases d with
    | true =>
      have hd2 : ((ancestorsOf (cp ++ [nm])).all fun q =>
            decide (lookupFS fs q = some FsEntry.dir)) = true ∧
          doneL cs (cp ++ [nm]) fs = true := by
        simpa [doneN, Bool.and_eq_true] using hd
      show (match makedirs fs (cp ++ [nm]) with
          | none => none
          | some fs1 => createChildren cs (cp ++ [nm]) fs1) = some fs
      have hm : makedirs fs (cp ++ [nm]) = some fs := by
        apply makedirsGo_id
        intro q hq
        have := List.all_eq_true.mp hd2.1 q hq
        rwa [decide_eq_true_eq] at this
      rw [hm]
      exact createChildren_done_id cs (cp ++ [nm]) fs hd2.2
    | false =>
      have hd2 : (lookupFS fs (cp ++ [nm])).isSome = true := hd
      show (if (lookupFS fs (cp ++ [nm])).isSome then some fs
          else some (setFS fs (cp ++ [nm]) (FsEntry.file 0))) = some fs
      rw [if_pos hd2]

/-- Forest version of `create_done_id`. -/
theorem createChildren_done_id : ∀ (cs : List Node) (p : FsPath) (fs : FS),
    doneL cs p fs = true → createChildren cs p fs = some fs
  | [], _, _ => by
    intro _
    rfl
  | c :: cs2, p, fs => by
    intro hd
    have hd2 : doneN c p fs = true ∧ doneL cs2 p fs = true := by
      simpa [doneL, Bool.and_eq_true] using hd
    show (match create_files_and_dirs c p fs with
        | none => none
        | some fsx => createChildren cs2 p fsx) = some fs
    rw [create_done_id c p fs hd2.1]
    exact createChildren_done_id cs2 p fs hd2.2

end

/-- C9: a successful materializer run (a) preserves every pre-existing
entry with its exact value, so in particular pre-existing files are
never deleted or truncated and pre-existing directories are reused,
(b) is idempotent — running it again from the resulting filesystem
succeeds and changes nothing, so two runs never touch pre-existing
files either — and (c) for a file node with anything already at its
path, leaves the filesystem untouched. -/
theorem c9_materialize (node : Node) (cp : FsPath) (fs fs2 : FS)
    (hc : create_files_and_dirs node cp fs = some fs2) :
    (∀ q e, lookupFS fs q = some e → lookupFS fs2 q = some e) ∧
    create_files_and_dirs node cp fs2 = some fs2 ∧
    (∀ p, lookupFS fs p = some FsEntry.dir →
      lookupFS fs2 p = some FsEntry.dir) ∧
    (∀ p sz, lookupFS fs p = some (FsEntry.file sz) →
      lookupFS fs2 p = some (FsEntry.file sz)) ∧
    (node.is_dir = false → (lookupFS fs (cp ++ [node.name])).isSome = true →
      fs2 = fs) := by
  refine ⟨fun q e he => create_preserve node cp fs fs2 q e hc he,
    create_done_id node cp fs2 (create_done node cp fs fs2 hc),
    fun p hp => create_preserve node cp fs fs2 p FsEntry.dir hc hp,
    fun p sz hp => create_preserve node cp fs fs2 p (FsEntry.file sz) hc hp,
    ?_⟩
  intro hfile hex
  cases node with
  | mk nm d l cs =>
    have hd2 : d = false := hfile
    subst hd2
    have hc2 : (if (lookupFS fs (cp ++ [nm])).isSome then some fs
        else some (setFS fs (cp ++ [nm]) (FsEntry.file 0))) = some fs2 := hc
    have hex2 : (lookupFS fs (cp ++ [nm])).isSome = true := hex
    rw [if_pos hex2] at hc2
    injection hc2 with h2
    rw [h2]

/-- Witness for C9: materializing `r/` with file child `b` into a
filesystem already holding the file `q` of size 7 keeps that file
intact, and a second run over the result is a no-op. -/
theorem c9_materialize_witness :
    lookupFS [([str "r/", str "b"], FsEntry.file 0), ([str "r/"], FsEntry.dir),
        ([str "q"], FsEntry.file 7)] [str "q"] = some (FsEntry.file 7) ∧
    create_files_and_dirs (.mk (str "r/") true 0 [.mk (str "b") false 4 []]) []
        [([str "r/", str "b"], FsEntry.file 0), ([str "r/"], FsEntry.dir),
          ([str "q"], FsEntry.file 7)] =
      some [([str "r/", str "b"], FsEntry.file 0), ([str "r/"], FsEntry.dir),
        ([str "q"], FsEntry.file 7)] :=
  ⟨(c9_materialize (.mk (str "r/") true 0 [.mk (str "b") false 4 []]) []
      [([str "q"], FsEntry.file 7)]
      [([str "r/", str "b"], FsEntry.file 0), ([str "r/"], FsEntry.dir),
        ([str "q"], FsEntry.file 7)] rfl).1 [str "q"] (FsEntry.file 7) rfl,
   (c9_materialize (.mk (str "r/") true 0 [.mk (str "b") false 4 []]) []
      [([str "q"], FsEntry.file 7)]
      [([str "r/", str "b"], FsEntry.file 0), ([str "r/"], FsEntry.dir),
        ([str "q"], FsEntry.file 7)] rfl).2.1⟩
